import Mathlib

/-!
Verification of the chigusa front-end core: a shallow embedding of
`src/prelude.rs` (source locations, span union, the `LoopCtrl` iteration
helper) and `src/c0/ast.rs` (the lexical `Scope` / symbol-table chain),
with theorems settling the specified properties.

Modelling conventions:
* Rust `usize` is modelled as `Nat`; subtraction that would underflow (a
  panic in the source) is modelled by `Option` with `none` for the abort.
* `assert!` failures and panics are modelled as `none` of an `Option`.
* `Ptr<TokenEntry>` entries are opaque to every scope operation in the
  source (no scope method inspects an entry), so `Scope` is parametrised
  by the entry type `ε`; entry equality (Rust `PartialEq` on `Ptr`)
  becomes `DecidableEq ε`.
* The `IndexMap` token table is modelled as an association list in
  insertion order: a vacant-entry insert appends at the end, `get` finds
  the (unique) key, and `IndexMap`'s order-independent `PartialEq` is
  `tableEq` below.
* `parent` is a `Weak` pointer in the source; during resolution the whole
  chain is alive, so `upgrade` is modelled as always succeeding and the
  chain is the inductive structure of `Scope`.
-/

namespace Chigusa

/-- `Pos` from `src/prelude.rs`: line, column and absolute offset. -/
structure Pos where
  ln : Nat
  pos : Nat
  index : Nat
deriving DecidableEq, Repr

def Pos.new (ln pos index : Nat) : Pos := ⟨ln, pos, index⟩

def Pos.zero : Pos := ⟨0, 0, 0⟩

/-- `Pos::bump`: advance the raw offset only. -/
def Pos.bump (p : Pos) : Pos := { p with index := p.index + 1 }

/-- `Pos::inc`: advance one column. -/
def Pos.inc (p : Pos) : Pos := { p with pos := p.pos + 1, index := p.index + 1 }

/-- `Pos::lf`: advance one line, reset the column. -/
def Pos.lf (p : Pos) : Pos := { p with pos := 0, ln := p.ln + 1, index := p.index + 1 }

/-- Rust `usize` subtraction `a - b`, which panics on underflow
(`none` models the abort). -/
def subUsize (a b : Nat) : Option Nat :=
  if b ≤ a then some (a - b) else none

/-- One field update of `Pos::map_inc`:
`if off >= 0 { v + off as usize } else { v - (-off) as usize }`. -/
def addSigned (v : Nat) (off : Int) : Option Nat :=
  if 0 ≤ off then some (v + off.toNat) else subUsize v (-off).toNat

/-- `Pos::map_inc`: arbitrary-delta advance of column (`pos`), line (`ln`)
and offset (`index`), in the source's field order. -/
def Pos.map_inc (p : Pos) (pos_offset ln_offset index_offset : Int) : Option Pos := do
  let newPos ← addSigned p.pos pos_offset
  let newLn ← addSigned p.ln ln_offset
  let newIndex ← addSigned p.index index_offset
  pure { ln := newLn, pos := newPos, index := newIndex }

/-- `Ord for Pos` compares by absolute offset only; this is
`std::cmp::min` under that order (ties return the first argument). -/
def Pos.cmpMin (a b : Pos) : Pos := if b.index < a.index then b else a

/-- `std::cmp::max` under the offset order (ties return the second
argument). -/
def Pos.cmpMax (a b : Pos) : Pos := if b.index < a.index then a else b

/-- `Span` from `src/prelude.rs`. Rust's field `end` is a Lean keyword and
is named `stop` here. -/
structure Span where
  start : Pos
  stop : Pos
deriving DecidableEq, Repr

/-- `Span::from`, whose `assert!(start <= end)` (offset order) is modelled
by `none` on violation. -/
def Span.fromPos (start stop : Pos) : Option Span :=
  if start.index ≤ stop.index then some ⟨start, stop⟩ else none

/-- `Span::point`. -/
def Span.point (p : Pos) : Option Span := Span.fromPos p p

/-- `Span::zero`. -/
def Span.zero : Option Span := Span.fromPos Pos.zero Pos.zero

/-- `impl Add for Span`: union of the two spans. -/
def Span.add (a b : Span) : Span :=
  { start := Pos.cmpMin a.start b.start, stop := Pos.cmpMax a.stop b.stop }

/-- A position on line 0 whose column and offset are both `n`; used to
state the spec's numeric span examples. -/
def posAt (n : Nat) : Pos := ⟨0, n, n⟩

/-- `LoopCtrl` from `src/prelude.rs`. -/
inductive LoopCtrl (T : Type) where
  | Stop : T → LoopCtrl T
  | Continue : LoopCtrl T
deriving DecidableEq, Repr

/-- `LoopCtrl::is_continue`. -/
def LoopCtrl.is_continue {T : Type} : LoopCtrl T → Bool
  | .Continue => true
  | .Stop _ => false

/-- `loop_while` drives an `FnMut` closure; the closure is modelled as a
state-passing step `S → LoopCtrl T × S`, and the possibly endless `while`
loop by an explicit iteration bound (`none` when the bound is exhausted
before a `Stop`). -/
def loop_while_fuel {S T : Type} (f : S → LoopCtrl T × S) : Nat → S → Option T
  | 0, _ => none
  | Nat.succ n, s =>
    match f s with
    | (LoopCtrl.Stop x, _) => some x
    | (LoopCtrl.Continue, s1) => loop_while_fuel f n s1

/-- State after `n` invocations of the step that all returned `Continue`
(`none` if some earlier invocation stopped). -/
def contIter {S T : Type} (f : S → LoopCtrl T × S) : Nat → S → Option S
  | 0, s => some s
  | Nat.succ n, s =>
    match f s with
    | (LoopCtrl.Continue, s1) => contIter f n s1
    | (LoopCtrl.Stop _, _) => none

/-- `IndexMap::get` on the token table: the value stored under a key
(first occurrence; an `IndexMap` holds each key once). -/
def lookupTbl {ε : Type} : List (String × ε) → String → Option ε
  | [], _ => none
  | (k, v) :: rest, token => if k = token then some v else lookupTbl rest token

/-- `Scope` from `src/c0/ast.rs`: an optional parent link and the
insertion-ordered token table, over an opaque entry type `ε`. -/
inductive Scope (ε : Type) : Type where
  | mk (parent : Option (Scope ε)) (token_table : List (String × ε))

/-- `Scope::parent` (`Weak::upgrade` modelled as always succeeding while
the chain is alive). -/
def Scope.parent {ε : Type} : Scope ε → Option (Scope ε)
  | .mk p _ => p

def Scope.token_table {ε : Type} : Scope ε → List (String × ε)
  | .mk _ t => t

/-- Replace the token table, keeping the parent link: the effect of a
mutation of `self.token_table`. -/
def Scope.withTable {ε : Type} : Scope ε → List (String × ε) → Scope ε
  | .mk p _, t => .mk p t

/-- `Scope::try_insert`: on a vacant entry, insert (append) and return
`true`; otherwise return `false` and leave the table untouched. The
mutation of `&mut self` is modelled by returning the updated scope. -/
def Scope.try_insert {ε : Type} (s : Scope ε) (token : String) (entry : ε) :
    Bool × Scope ε :=
  match lookupTbl s.token_table token with
  | none => (true, s.withTable (s.token_table ++ [(token, entry)]))
  | some _ => (false, s)

/-- `Scope::try_insert_or_replace_same`: on a vacant entry, insert and
return `true`; on an occupied entry the source's replace arm is a stub
(`TODO`) that returns `false` without comparing or replacing anything. -/
def Scope.try_insert_or_replace_same {ε : Type} (s : Scope ε) (token : String)
    (entry : ε) : Bool × Scope ε :=
  match lookupTbl s.token_table token with
  | none => (true, s.withTable (s.token_table ++ [(token, entry)]))
  | some _ => (false, s)

/-- `Scope::find_definition_self`: this scope's table only. -/
def Scope.find_definition_self {ε : Type} (s : Scope ε) (token : String) :
    Option ε :=
  lookupTbl s.token_table token

/-- `Scope::find_definition`: this scope, `or_else` delegate to the parent
recursively. -/
def Scope.find_definition {ε : Type} : Scope ε → String → Option ε
  | .mk none t, token => lookupTbl t token
  | .mk (some par) t, token =>
    match lookupTbl t token with
    | some e => some e
    | none => Scope.find_definition par token

/-- `Scope::find_definition_skip`: with `skip = 0` a plain
`find_definition`; otherwise recurse into the parent with `skip - 1`,
`None` when the chain runs out. -/
def Scope.find_definition_skip {ε : Type} : Scope ε → String → Nat → Option ε
  | s, token, 0 => s.find_definition token
  | s, token, Nat.succ n =>
    match s.parent with
    | some par => Scope.find_definition_skip par token n
    | none => none

/-- The `n`-th enclosing ancestor of a scope (`0` is the scope itself). -/
def Scope.nthAncestor {ε : Type} : Scope ε → Nat → Option (Scope ε)
  | s, 0 => some s
  | s, Nat.succ n =>
    match s.parent with
    | some par => Scope.nthAncestor par n
    | none => none

/-- Whether any scope in the chain binds the token. -/
def Scope.bindsInChain {ε : Type} : Scope ε → String → Bool
  | .mk none t, token => (lookupTbl t token).isSome
  | .mk (some par) t, token =>
    (lookupTbl t token).isSome || par.bindsInChain token

/-- `IndexMap`'s `PartialEq`: same length, and every key-value pair of the
first is stored in the second (order-independent). -/
def tableEq {ε : Type} [DecidableEq ε] (t1 t2 : List (String × ε)) : Bool :=
  (t1.length == t2.length) &&
    t1.all (fun kv =>
      match lookupTbl t2 kv.1 with
      | some v => decide (kv.2 = v)
      | none => false)

/-- `impl PartialEq for Scope`: equality is `token_table` equality only;
the parent link is ignored. -/
def Scope.scopeEq {ε : Type} [DecidableEq ε] (s1 s2 : Scope ε) : Bool :=
  tableEq s1.token_table s2.token_table

/-- A token table with no repeated key — the invariant `IndexMap`
maintains. -/
def nodupKeys {ε : Type} (t : List (String × ε)) : Prop :=
  (t.map Prod.fst).Nodup

/-- Identifier grammar `[A-Za-z_][A-Za-z0-9_]*`. Modelled from the spec:
the source's `try_insert` (the claimed check site) contains no such
check, and no `InvalidName` error exists in the sources; this definition
follows the spec's words so the absent behaviour can be stated. -/
def isIdentStart (c : Char) : Bool :=
  (('A' ≤ c && c ≤ 'Z') || ('a' ≤ c && c ≤ 'z')) || c = '_'

/-- Continuation characters of the spec's identifier grammar. -/
def isIdentChar (c : Char) : Bool :=
  isIdentStart c || ('0' ≤ c && c ≤ '9')

/-- Modelled from the spec: whether a name matches
`[A-Za-z_][A-Za-z0-9_]*`. -/
def isValidIdent (s : String) : Bool :=
  match s.data with
  | [] => false
  | c :: cs => isIdentStart c && cs.all isIdentChar

/-! ## Helper lemmas -/

theorem lookupTbl_append_vacant {ε : Type} :
    ∀ (t : List (String × ε)) (n : String) (e : ε),
      lookupTbl t n = none → lookupTbl (t ++ [(n, e)]) n = some e
  | [], n, e, _ => by simp [lookupTbl]
  | (k, v) :: rest, n, e, h => by
    by_cases hk : k = n
    · simp [lookupTbl, hk] at h
    · simp only [lookupTbl, hk, if_false] at h
      simpa only [List.cons_append, lookupTbl, hk, if_false] using
        lookupTbl_append_vacant rest n e h

theorem lookupTbl_mem_of_eq_some {ε : Type} :
    ∀ {t : List (String × ε)} {n : String} {v : ε},
      lookupTbl t n = some v → (n, v) ∈ t
  | [], n, v, h => by simp [lookupTbl] at h
  | (k, w) :: rest, n, v, h => by
    by_cases hk : k = n
    · subst hk
      simp only [lookupTbl, if_true] at h
      simp [← Option.some_inj.mp h]
    · simp only [lookupTbl, hk, if_false] at h
      exact List.mem_cons_of_mem _ (lookupTbl_mem_of_eq_some h)

theorem lookupTbl_isSome_iff_mem_keys {ε : Type} :
    ∀ (t : List (String × ε)) (n : String),
      (lookupTbl t n).isSome = true ↔ n ∈ t.map Prod.fst
  | [], n => by simp [lookupTbl]
  | (k, w) :: rest, n => by
    by_cases hk : k = n
    · subst hk
      simp [lookupTbl]
    · simp only [lookupTbl, hk, if_false, List.map_cons, List.mem_cons]
      rw [lookupTbl_isSome_iff_mem_keys rest n]
      constructor
      · exact Or.inr
      · rintro (h | h)
        · exact absurd h.symm hk
        · exact h

theorem lookupTbl_of_mem_nodup {ε : Type} :
    ∀ {t : List (String × ε)} {n : String} {v : ε},
      nodupKeys t → (n, v) ∈ t → lookupTbl t n = some v
  | [], n, v, _, hm => by simp at hm
  | (k, w) :: rest, n, v, hnd, hm => by
    have hnd' : nodupKeys rest := (List.nodup_cons.mp hnd).2
    rcases List.mem_cons.mp hm with h | h
    · cases h
      simp [lookupTbl]
    · have hk : k ≠ n := by
        intro hkn
        subst hkn
        have : k ∈ rest.map Prod.fst :=
          List.mem_map.mpr ⟨(k, v), h, rfl⟩
        exact (List.nodup_cons.mp hnd).1 this
      simp only [lookupTbl, hk, if_false]
      exact lookupTbl_of_mem_nodup hnd' h

theorem find_definition_unfold {ε : Type} (s : Scope ε) (tok : String) :
    s.find_definition tok = (s.find_definition_self tok).orElse
      (fun _ => s.parent.elim none (fun p => p.find_definition tok)) := by
  cases s with
  | mk p t =>
    cases p with
    | none =>
      cases h : lookupTbl t tok <;>
        simp [Scope.find_definition, Scope.find_definition_self,
          Scope.token_table, Scope.parent, Option.orElse, h]
    | some par =>
      cases h : lookupTbl t tok <;>
        simp [Scope.find_definition, Scope.find_definition_self,
          Scope.token_table, Scope.parent, Option.orElse, h]

theorem find_definition_none_of_unbound {ε : Type} :
    ∀ (s : Scope ε) (tok : String), s.bindsInChain tok = false →
      s.find_definition tok = none
  | .mk none t, tok, h => by
    cases hl : lookupTbl t tok with
    | some v => simp [Scope.bindsInChain, hl] at h
    | none => simp [Scope.find_definition, hl]
  | .mk (some par) t, tok, h => by
    cases hl : lookupTbl t tok with
    | some v => simp [Scope.bindsInChain, hl] at h
    | none =>
      simp only [Scope.bindsInChain, hl, Option.isSome_none,
        Bool.false_or] at h
      simp [Scope.find_definition, hl,
        find_definition_none_of_unbound par tok h]

theorem find_definition_skip_eq_nthAncestor {ε : Type} :
    ∀ (n : Nat) (s : Scope ε) (tok : String),
      s.find_definition_skip tok n =
        (s.nthAncestor n).elim none (fun a => a.find_definition tok)
  | 0, s, tok => by simp [Scope.find_definition_skip, Scope.nthAncestor]
  | Nat.succ n, s, tok => by
    cases hp : s.parent with
    | none => simp [Scope.find_definition_skip, Scope.nthAncestor, hp]
    | some par =>
      simp [Scope.find_definition_skip, Scope.nthAncestor, hp,
        find_definition_skip_eq_nthAncestor n par tok]

theorem cmpMin_index (a b : Pos) :
    (Pos.cmpMin a b).index = min a.index b.index := by
  rw [Pos.cmpMin, min_def]
  split <;> split <;> omega

theorem cmpMax_index (a b : Pos) :
    (Pos.cmpMax a b).index = max a.index b.index := by
  rw [Pos.cmpMax, max_def]
  split <;> split <;> omega

theorem cmpMin_comm_of_inj (a b : Pos) (h : a.index = b.index → a = b) :
    Pos.cmpMin a b = Pos.cmpMin b a := by
  rw [Pos.cmpMin, Pos.cmpMin]
  rcases Nat.lt_trichotomy a.index b.index with hlt | heq | hgt
  · rw [if_neg (by omega), if_pos hlt]
  · rw [if_neg (by omega), if_neg (by omega), h heq]
  · rw [if_pos hgt, if_neg (by omega)]

theorem cmpMax_comm_of_inj (a b : Pos) (h : a.index = b.index → a = b) :
    Pos.cmpMax a b = Pos.cmpMax b a := by
  rw [Pos.cmpMax, Pos.cmpMax]
  rcases Nat.lt_trichotomy a.index b.index with hlt | heq | hgt
  · rw [if_neg (by omega), if_pos hlt]
  · rw [if_neg (by omega), if_neg (by omega), h heq]
  · rw [if_pos hgt, if_neg (by omega)]

/-- Claim C4: span union (`+` on `Span`) takes the minimum start and the
maximum end (positions ordered by absolute offset), the spec's example
`union(Span(0,2), Span(4,8)) = Span(0,8)` holds, and for spans drawn from
the same source text (where equal offsets mean equal positions) the
operation is commutative. -/
theorem c4_span_union_min_max (a b : Span)
    (hs : a.start.index = b.start.index → a.start = b.start)
    (he : a.stop.index = b.stop.index → a.stop = b.stop) :
    (Span.add a b).start.index = min a.start.index b.start.index
    ∧ (Span.add a b).stop.index = max a.stop.index b.stop.index
    ∧ Span.add a b = Span.add b a
    ∧ Span.add ⟨posAt 0, posAt 2⟩ ⟨posAt 4, posAt 8⟩ = ⟨posAt 0, posAt 8⟩ := by
  refine ⟨cmpMin_index a.start b.start, cmpMax_index a.stop b.stop, ?_, by decide⟩
  rw [Span.add, Span.add, cmpMin_comm_of_inj _ _ hs, cmpMax_comm_of_inj _ _ he]

/-- Witness for C4 at the spec's concrete spans. -/
theorem c4_span_union_min_max_witness :
    Span.add ⟨posAt 0, posAt 2⟩ ⟨posAt 4, posAt 8⟩
      = Span.add ⟨posAt 4, posAt 8⟩ ⟨posAt 0, posAt 2⟩
    ∧ Span.add ⟨posAt 0, posAt 2⟩ ⟨posAt 4, posAt 8⟩ = ⟨posAt 0, posAt 8⟩ := by
  have h := c4_span_union_min_max ⟨posAt 0, posAt 2⟩ ⟨posAt 4, posAt 8⟩
    (by decide) (by decide)
  exact ⟨h.2.2.1, h.2.2.2⟩

/-- Claim C7: every constructed `Span` satisfies start ≤ end by absolute
offset; `Span::from` with start > end hits the `assert!` (modelled as
`none`, the fatal abort) instead of returning a span, and `Span::point`
builds a span with start = end. -/
theorem c7_span_start_le_end :
    (∀ p q : Pos, (Span.fromPos p q).isSome = true ↔ p.index ≤ q.index)
    ∧ (∀ (p q : Pos) (sp : Span), Span.fromPos p q = some sp →
        sp.start.index ≤ sp.stop.index ∧ sp.start = p ∧ sp.stop = q)
    ∧ (∀ p : Pos, Span.point p = some ⟨p, p⟩) := by
  refine ⟨fun p q => ?_, fun p q sp h => ?_, fun p => ?_⟩
  · by_cases h : p.index ≤ q.index <;> simp [Span.fromPos, h]
  · rw [Span.fromPos] at h
    by_cases hle : p.index ≤ q.index
    · rw [if_pos hle, Option.some_inj] at h
      subst h
      exact ⟨hle, rfl, rfl⟩
    · rw [if_neg hle] at h
      exact absurd h (by simp)
  · simp [Span.point, Span.fromPos]

/-- Witness for C7 at concrete positions. -/
theorem c7_span_start_le_end_witness :
    (Span.fromPos Pos.zero (posAt 3)).isSome = true
    ∧ Span.point Pos.zero = some ⟨Pos.zero, Pos.zero⟩ := by
  exact ⟨(c7_span_start_le_end.1 Pos.zero (posAt 3)).mpr (by decide),
    c7_span_start_le_end.2.2 Pos.zero⟩

theorem addSigned_isSome_iff (v : Nat) (off : Int) :
    (addSigned v off).isSome = true ↔ (off < 0 → (-off).toNat ≤ v) := by
  rw [addSigned, subUsize]
  by_cases h : 0 ≤ off
  · simp only [if_pos h, Option.isSome_some, true_iff]
    omega
  · rw [if_neg h]
    by_cases hle : (-off).toNat ≤ v
    · simp only [if_pos hle, Option.isSome_some, true_iff]
      omega
    · simp only [if_neg hle, Option.isSome_none, Bool.false_eq_true, false_iff]
      intro hc
      exact hle (hc (by omega))

theorem addSigned_eq_some {v w : Nat} {off : Int} (h : addSigned v off = some w) :
    (w : Int) = (v : Int) + off := by
  rw [addSigned, subUsize] at h
  by_cases h0 : 0 ≤ off
  · rw [if_pos h0, Option.some_inj] at h
    omega
  · rw [if_neg h0] at h
    by_cases hle : (-off).toNat ≤ v
    · rw [if_pos hle, Option.some_inj] at h
      omega
    · rw [if_neg hle] at h
      exact absurd h (by simp)

/-- Claim C9: `Pos::map_inc` is total exactly when every negative delta's
magnitude is bounded by the corresponding current field (column for the
first delta, line for the second, offset for the third); in that case each
resulting field equals the old value plus its delta, and outside it the
`usize` subtraction underflows (the fatal abort, modelled as `none`). -/
theorem c9_map_inc_total_iff (p : Pos) (a b c : Int) :
    ((Pos.map_inc p a b c).isSome = true ↔
      ((a < 0 → (-a).toNat ≤ p.pos) ∧ (b < 0 → (-b).toNat ≤ p.ln)
        ∧ (c < 0 → (-c).toNat ≤ p.index)))
    ∧ (∀ q : Pos, Pos.map_inc p a b c = some q →
        ((q.pos : Int) = (p.pos : Int) + a ∧ (q.ln : Int) = (p.ln : Int) + b
          ∧ (q.index : Int) = (p.index : Int) + c)) := by
  constructor
  · have hsplit : (Pos.map_inc p a b c).isSome = true ↔
        ((addSigned p.pos a).isSome = true ∧ (addSigned p.ln b).isSome = true
          ∧ (addSigned p.index c).isSome = true) := by
      cases ha : addSigned p.pos a <;> cases hb : addSigned p.ln b <;>
        cases hc : addSigned p.index c <;>
        simp [Pos.map_inc, ha, hb, hc]
    rw [hsplit, addSigned_isSome_iff, addSigned_isSome_iff, addSigned_isSome_iff]
  · intro q hq
    cases ha : addSigned p.pos a with
    | none => simp [Pos.map_inc, ha] at hq
    | some np =>
      cases hb : addSigned p.ln b with
      | none => simp [Pos.map_inc, ha, hb] at hq
      | some nl =>
        cases hc : addSigned p.index c with
        | none => simp [Pos.map_inc, ha, hb, hc] at hq
        | some ni =>
          have hq' : q = Pos.mk nl np ni := by
            rw [Pos.map_inc, ha, hb, hc] at hq
            exact (Option.some_inj.mp hq).symm
          subst hq'
          exact ⟨addSigned_eq_some ha, addSigned_eq_some hb, addSigned_eq_some hc⟩

/-- Witness for C9: `map_inc` at `Pos(ln 5, col 7, idx 9)` with deltas
`(-2, 3, -4)`. -/
theorem c9_map_inc_total_iff_witness :
    (Pos.map_inc ⟨5, 7, 9⟩ (-2) 3 (-4)).isSome = true
    ∧ ((Pos.mk 8 5 5).pos : Int) = ((Pos.mk 5 7 9).pos : Int) + (-2) := by
  refine ⟨(c9_map_inc_total_iff ⟨5, 7, 9⟩ (-2) 3 (-4)).1.mpr (by decide), ?_⟩
  exact ((c9_map_inc_total_iff ⟨5, 7, 9⟩ (-2) 3 (-4)).2 ⟨8, 5, 5⟩ (by decide)).1

/-- Claim C8: the driving loop repeats on every `Continue` and terminates
at the first `Stop`, yielding exactly its value: if `n` invocations return
`Continue` and the next one stops with `x`, then with any iteration bound
above `n` the loop returns `x`. -/
theorem c8_loop_while_stops {S T : Type} (f : S → LoopCtrl T × S) (s' : S)
    (x : T) (hstop : (f s').1 = LoopCtrl.Stop x) :
    ∀ (n : Nat) (s : S) (fuel : Nat),
      contIter f n s = some s' → n < fuel → loop_while_fuel f fuel s = some x
  | 0, s, 0, _, hlt => absurd hlt (by omega)
  | 0, s, Nat.succ m, hc, _ => by
    rw [contIter, Option.some_inj] at hc
    subst hc
    cases hfs : f s with
    | mk ctl s1 =>
      rw [hfs] at hstop
      cases ctl with
      | Stop y =>
        have hy : y = x := by
          simpa using hstop
        rw [loop_while_fuel, hfs, hy]
      | Continue => simp at hstop
  | Nat.succ n, s, 0, _, hlt => absurd hlt (by omega)
  | Nat.succ n, s, Nat.succ m, hc, hlt => by
    cases hfs : f s with
    | mk ctl s1 =>
      cases ctl with
      | Stop y =>
        rw [contIter, hfs] at hc
        simp at hc
      | Continue =>
        rw [contIter, hfs] at hc
        rw [loop_while_fuel, hfs]
        exact c8_loop_while_stops f s' x hstop n s1 m hc (by omega)

/-- Witness for C8: a countdown step stopping at 0 with value 42, three
`Continue`s from state 3, bound 5. -/
theorem c8_loop_while_stops_witness :
    loop_while_fuel
      (fun s : Nat =>
        if s = 0 then (LoopCtrl.Stop 42, s) else (LoopCtrl.Continue, s - 1))
      5 3 = some 42 := by
  exact c8_loop_while_stops
    (fun s : Nat =>
      if s = 0 then (LoopCtrl.Stop 42, s) else (LoopCtrl.Continue, s - 1))
    0 42 rfl 3 3 5 rfl (by omega)

/-- Claim C1: `find_definition` searches the current scope and on a miss
delegates to the parent recursively (innermost-first); declaring a name
already bound in an outer scope succeeds, lookup from the inner scope
yields the inner entry while the outer scope (left untouched by the
insert) still yields the outer entry, and lookup is `none` when no scope
in the chain binds the name. -/
theorem c1_lookup_innermost_first {ε : Type} (outer : Scope ε)
    (t : List (String × ε)) (n m : String) (e_in e_out : ε)
    (hvac : lookupTbl t n = none)
    (hout : outer.find_definition n = some e_out)
    (hm : (Scope.mk (some outer) t).bindsInChain m = false) :
    (∀ (s : Scope ε) (tok : String),
        s.find_definition tok = (s.find_definition_self tok).orElse
          (fun _ => s.parent.elim none (fun p => p.find_definition tok)))
    ∧ ((Scope.mk (some outer) t).try_insert n e_in).1 = true
    ∧ (((Scope.mk (some outer) t).try_insert n e_in).2).find_definition n
        = some e_in
    ∧ (((Scope.mk (some outer) t).try_insert n e_in).2).parent = some outer
    ∧ outer.find_definition n = some e_out
    ∧ (Scope.mk (some outer) t).find_definition m = none := by
  have hins : (Scope.mk (some outer) t : Scope ε).try_insert n e_in
      = (true, Scope.mk (some outer) (t ++ [(n, e_in)])) := by
    rw [Scope.try_insert]
    rw [show (Scope.mk (some outer) t : Scope ε).token_table = t from rfl, hvac]
    rfl
  refine ⟨find_definition_unfold, ?_, ?_, ?_, hout,
    find_definition_none_of_unbound _ _ hm⟩
  · rw [hins]
  · rw [hins]
    simp [Scope.find_definition, lookupTbl_append_vacant t n e_in hvac]
  · rw [hins]
    rfl

/-- Witness for C1: outer scope binds `x` to 1, inner scope shadows it
with 3; `z` is bound nowhere. -/
theorem c1_lookup_innermost_first_witness :
    ((Scope.mk (some (Scope.mk none [("x", 1)])) [("y", 2)] : Scope Nat).try_insert
        "x" 3).2.find_definition "x" = some 3
    ∧ (Scope.mk none [("x", 1)] : Scope Nat).find_definition "x" = some 1
    ∧ (Scope.mk (some (Scope.mk none [("x", 1)])) [("y", 2)] : Scope Nat).find_definition
        "z" = none := by
  have h := c1_lookup_innermost_first (Scope.mk none [("x", 1)] : Scope Nat)
    [("y", 2)] "x" "z" 3 1 (by decide) (by decide) (by decide)
  exact ⟨h.2.2.1, h.2.2.2.2.1, h.2.2.2.2.2⟩

/-- Claim C2: after a successful insert of `(n, e1)`, a second insert of
`n` into the same scope is rejected (`false`, the NameConflict signal of
`try_insert`), the scope is left exactly as it was after the first
insert, and the entry stored under `n` is still `e1`. -/
theorem c2_duplicate_insert_name_conflict {ε : Type} (s : Scope ε)
    (n : String) (e1 e2 : ε) (h : (s.try_insert n e1).1 = true) :
    ((s.try_insert n e1).2.try_insert n e2).1 = false
    ∧ ((s.try_insert n e1).2.try_insert n e2).2 = (s.try_insert n e1).2
    ∧ (s.try_insert n e1).2.find_definition_self n = some e1 := by
  cases hl : lookupTbl s.token_table n with
  | some v =>
    rw [Scope.try_insert, hl] at h
    simp at h
  | none =>
    have hins : s.try_insert n e1
        = (true, s.withTable (s.token_table ++ [(n, e1)])) := by
      rw [Scope.try_insert, hl]
    have htbl : (s.withTable (s.token_table ++ [(n, e1)])).token_table
        = s.token_table ++ [(n, e1)] := by
      cases s
      rfl
    have hfind : lookupTbl (s.token_table ++ [(n, e1)]) n = some e1 :=
      lookupTbl_append_vacant _ _ _ hl
    rw [hins]
    refine ⟨?_, ?_, ?_⟩ <;>
      simp [Scope.try_insert, Scope.find_definition_self, htbl, hfind]

/-- Witness for C2: insert `x ↦ 1` then `x ↦ 2` into one scope. -/
theorem c2_duplicate_insert_name_conflict_witness :
    (((Scope.mk none ([] : List (String × Nat))).try_insert "x" 1).2.try_insert
        "x" 2).1 = false
    ∧ ((Scope.mk none ([] : List (String × Nat))).try_insert
        "x" 1).2.find_definition_self "x" = some 1 := by
  have h := c2_duplicate_insert_name_conflict
    (Scope.mk none ([] : List (String × Nat))) "x" 1 2 rfl
  exact ⟨h.1, h.2.2⟩

/-- Counterexample to C3 as stated: `"1abc"` fails the identifier grammar
`[A-Za-z_][A-Za-z0-9_]*`, yet inserting it into an empty scope succeeds
(`true`) and changes the table — `try_insert` performs no grammar check
and no InvalidName rejection exists in the sources. -/
theorem c3_invalid_name_counterexample :
    isValidIdent "1abc" = false
    ∧ ((Scope.mk none ([] : List (String × Nat))).try_insert "1abc" 0).1 = true
    ∧ ((Scope.mk none ([] : List (String × Nat))).try_insert
        "1abc" 0).2.token_table = [("1abc", 0)] := by
  decide

/-- Claim C3 as amended: `try_insert` applies no identifier-grammar
validation — a name failing `[A-Za-z_][A-Za-z0-9_]*` is inserted
successfully (returning `true` and storing the entry) whenever it is
vacant in the scope; duplicates remain the only rejection. -/
theorem c3_insert_ignores_identifier_grammar {ε : Type} (s : Scope ε)
    (n : String) (e : ε) (_hbad : isValidIdent n = false)
    (hvac : s.find_definition_self n = none) :
    (s.try_insert n e).1 = true
    ∧ (s.try_insert n e).2.find_definition_self n = some e := by
  rw [Scope.find_definition_self] at hvac
  have htbl : (s.withTable (s.token_table ++ [(n, e)])).token_table
      = s.token_table ++ [(n, e)] := by
    cases s
    rfl
  constructor
  · rw [Scope.try_insert, hvac]
  · rw [Scope.try_insert, hvac]
    simp [Scope.find_definition_self, htbl, lookupTbl_append_vacant _ _ _ hvac]

/-- Witness for the amended C3 at the ungrammatical name `"1abc"`. -/
theorem c3_insert_ignores_identifier_grammar_witness :
    (((Scope.mk none ([] : List (String × Nat))).try_insert "1abc" 7).1 = true) := by
  exact (c3_insert_ignores_identifier_grammar
    (Scope.mk none ([] : List (String × Nat))) "1abc" 7 (by decide) rfl).1

/-- Claim C5: `find_definition_skip` with skip `n` equals a full
`find_definition` started at the `n`-th enclosing ancestor (the scope
itself being the 0-th), is a plain lookup at `n = 0`, and is `none` when
the chain has fewer than `n` ancestors. -/
theorem c5_find_definition_skip_spec {ε : Type} (s : Scope ε) (tok : String)
    (n : Nat) :
    s.find_definition_skip tok n =
      (s.nthAncestor n).elim none (fun a => a.find_definition tok)
    ∧ s.find_definition_skip tok 0 = s.find_definition tok
    ∧ (s.nthAncestor n = none → s.find_definition_skip tok n = none) := by
  refine ⟨find_definition_skip_eq_nthAncestor n s tok, rfl, fun h => ?_⟩
  rw [find_definition_skip_eq_nthAncestor n s tok, h]
  rfl

/-- Witness for C5: skipping 2 scopes on a 2-scope chain yields `none`
even though the chain binds the name. -/
theorem c5_find_definition_skip_spec_witness :
    (Scope.mk (some (Scope.mk none [("x", 1)])) [("y", 2)] : Scope Nat).find_definition_skip
      "x" 2 = none
    ∧ (Scope.mk (some (Scope.mk none [("x", 1)])) [("y", 2)] : Scope Nat).find_definition_skip
      "x" 1 = some 1 := by
  refine ⟨(c5_find_definition_skip_spec
    (Scope.mk (some (Scope.mk none [("x", 1)])) [("y", 2)] : Scope Nat)
    "x" 2).2.2 rfl, ?_⟩
  rw [(c5_find_definition_skip_spec
    (Scope.mk (some (Scope.mk none [("x", 1)])) [("y", 2)] : Scope Nat) "x" 1).1]
  rfl

/-- Claim C6: `try_insert_or_replace_same` inserts and returns `true` on a
vacant name; on an occupied name it always returns `false` and leaves the
scope unchanged — even when the offered entry equals the stored one — and
indeed behaves exactly like plain `try_insert` (the replace arm is a
stub). -/
theorem c6_insert_or_replace_stub {ε : Type} (s : Scope ε) (n : String)
    (e : ε) :
    (s.find_definition_self n = none →
      (s.try_insert_or_replace_same n e).1 = true
      ∧ (s.try_insert_or_replace_same n e).2.find_definition_self n = some e)
    ∧ (∀ e' : ε, s.find_definition_self n = some e' →
        s.try_insert_or_replace_same n e = (false, s))
    ∧ s.try_insert_or_replace_same n e = s.try_insert n e := by
  refine ⟨fun hvac => ?_, fun e' hocc => ?_, rfl⟩
  · rw [Scope.find_definition_self] at hvac
    have htbl : (s.withTable (s.token_table ++ [(n, e)])).token_table
        = s.token_table ++ [(n, e)] := by
      cases s
      rfl
    constructor
    · rw [Scope.try_insert_or_replace_same, hvac]
    · rw [Scope.try_insert_or_replace_same, hvac]
      simp [Scope.find_definition_self, htbl,
        lookupTbl_append_vacant _ _ _ hvac]
  · rw [Scope.find_definition_self] at hocc
    rw [Scope.try_insert_or_replace_same, hocc]

/-- Witness for C6: re-offering the very entry already stored under `x`
still fails and changes nothing. -/
theorem c6_insert_or_replace_stub_witness :
    (Scope.mk none [("x", 5)] : Scope Nat).try_insert_or_replace_same "x" 5
      = (false, Scope.mk none [("x", 5)]) := by
  exact (c6_insert_or_replace_stub (Scope.mk none [("x", 5)] : Scope Nat)
    "x" 5).2.1 5 rfl

/-- Claim C10: `PartialEq for Scope` compares only the token tables — two
scopes with arbitrary (equal, different or absent) parent links compare
equal exactly when their tables store the same bindings (`IndexMap`'s
order-independent map equality, characterised extensionally for tables
with unique keys). -/
theorem c10_scope_eq_ignores_parent {ε : Type} [DecidableEq ε]
    (p1 p2 : Option (Scope ε)) (t1 t2 : List (String × ε))
    (h1 : nodupKeys t1) (h2 : nodupKeys t2) :
    Scope.scopeEq (Scope.mk p1 t1) (Scope.mk p2 t2) = true ↔
      ∀ k : String, lookupTbl t1 k = lookupTbl t2 k := by
  have hpair : ∀ kv : String × ε,
      ((match lookupTbl t2 kv.1 with
        | some v => decide (kv.2 = v)
        | none => false) = true) ↔ lookupTbl t2 kv.1 = some kv.2 := by
    intro kv
    cases hl : lookupTbl t2 kv.1 with
    | none => simp [hl]
    | some w => simp [hl, eq_comm]
  have huf : Scope.scopeEq (Scope.mk p1 t1) (Scope.mk p2 t2) = tableEq t1 t2 := rfl
  rw [huf, tableEq, Bool.and_eq_true, beq_iff_eq, List.all_eq_true]
  constructor
  · rintro ⟨hlen, hall⟩ k
    have hall' : ∀ kv ∈ t1, lookupTbl t2 kv.1 = some kv.2 := by
      intro kv hkv
      exact (hpair kv).mp (hall kv hkv)
    have hsub : t1.map Prod.fst ⊆ t2.map Prod.fst := by
      intro a ha
      obtain ⟨kv, hkv, rfl⟩ := List.mem_map.mp ha
      have := hall' kv hkv
      exact (lookupTbl_isSome_iff_mem_keys t2 kv.1).mp (by simp [this])
    have hperm : List.Perm (t1.map Prod.fst) (t2.map Prod.fst) := by
      refine (List.subperm_of_subset h1 hsub).perm_of_length_le ?_
      simp [hlen]
    cases hl1 : lookupTbl t1 k with
    | some v =>
      have := hall' (k, v) (lookupTbl_mem_of_eq_some hl1)
      exact this.symm
    | none =>
      cases hl2 : lookupTbl t2 k with
      | none => rfl
      | some w =>
        have hk2 : k ∈ t2.map Prod.fst :=
          (lookupTbl_isSome_iff_mem_keys t2 k).mp (by simp [hl2])
        have hk1 : k ∈ t1.map Prod.fst := hperm.mem_iff.mpr hk2
        have hs1 := (lookupTbl_isSome_iff_mem_keys t1 k).mpr hk1
        rw [hl1] at hs1
        simp at hs1
  · intro hall
    have hiff : ∀ k, k ∈ t1.map Prod.fst ↔ k ∈ t2.map Prod.fst := by
      intro k
      rw [← lookupTbl_isSome_iff_mem_keys, ← lookupTbl_isSome_iff_mem_keys,
        hall k]
    refine ⟨?_, ?_⟩
    · have hl1 := (List.subperm_of_subset h1 (fun a ha => (hiff a).mp ha)).length_le
      have hl2 := (List.subperm_of_subset h2 (fun a ha => (hiff a).mpr ha)).length_le
      simp only [List.length_map] at hl1 hl2
      omega
    · intro kv hkv
      refine (hpair kv).mpr ?_
      rw [← hall kv.1]
      exact lookupTbl_of_mem_nodup h1 hkv

/-- Witness for C10: equal tables, one scope a root and the other with a
(different) parent, compare equal. -/
theorem c10_scope_eq_ignores_parent_witness :
    Scope.scopeEq (Scope.mk none [("x", 1)] : Scope Nat)
      (Scope.mk (some (Scope.mk none [("y", 2)])) [("x", 1)]) = true := by
  exact (c10_scope_eq_ignores_parent none (some (Scope.mk none [("y", 2)]))
    [("x", 1)] [("x", 1)] (by simp [nodupKeys]) (by simp [nodupKeys])).mpr
    (fun k => rfl)

end Chigusa
